import Mathlib

/-!
Verification of the cocogitto changelog core: the release-partitioning
algorithm `release_from_commits` (src/crates/cocogitto/src/command/changelog.rs)
and the release data model (src/crates/cocogitto-changelog/src/release.rs),
together with spec-modelled fragments of the template selector and the
renderer grouping step, whose sources live outside this tree.

Conventions of the shallow embedding:
* The raw git commit type is an opaque type parameter `C` (the commit range
  source is an external collaborator).
* The external classification services (`Commit::from_git_commit`,
  `SETTINGS.should_omit_commit`, `commit_username`, `get_changelog_title`)
  are bundled in a parameter record `Env`.
* `Utc::now().naive_local()` is passed in as an integer timestamp `now`.
* The input list `commits` models the `CommitIter` in iteration order; the
  code calls `.rev()` on it, so `commits.reverse` is the oldest-to-newest
  processing order.
-/

namespace Cocogitto

/-- A version tag: display name plus target hash.  Modelled from the spec
(§3 Identifier: `Tag(name, target-hash, …)`); only these two components are
observable in the sources under verification. -/
structure Tag where
  name : String
  oid : String
deriving DecidableEq, Repr

/-- Modelled from the spec: an Identifier is "either `Tag(name, target-hash, …)`
or `FirstCommit(hash)`" (§3); both variants are matched in
`release_from_commits` (`OidOf::Tag(_)`) and its tests (`OidOf::FirstCommit`). -/
inductive OidOf where
  | Tag (tag : Tag)
  | FirstCommit (oid : String)
deriving DecidableEq, Repr

instance : Inhabited OidOf := ⟨.FirstCommit ""⟩

/-- `matches!(oid, OidOf::Tag(_))` from `release_from_commits`. -/
def is_tag : OidOf → Bool
  | .Tag _ => true
  | .FirstCommit _ => false

/-- Footer of a conventional commit (external crate `cocogitto_commit`;
modelled from the spec §3: footers of the structured commit). -/
structure Footer where
  token : String
  content : String
deriving DecidableEq, Repr

/-- Modelled from the spec: the structured conventional commit
"(type, scope, summary, footers, breaking-change flag)" (§3); the parser
producing it is an external collaborator.  Commit types are kept opaque as
strings. -/
structure ConventionalCommit where
  commit_type : String
  scope : Option String
  summary : String
  body : Option String
  footers : List Footer
  is_breaking_change : Bool
deriving DecidableEq, Repr

/-- Modelled from the spec: the classified commit record
"(type, scope, summary, hash, author, date, breaking-change flag, footers)"
(§3), external crate `cocogitto_commit`. -/
structure Commit where
  oid : String
  conventional : ConventionalCommit
  author : String
  date : Int
deriving DecidableEq, Repr

/-- `ChangelogCommit` from src/crates/cocogitto-changelog/src/release.rs. -/
structure ChangelogCommit where
  changelog_title : String
  author_username : Option String
  commit : Commit
deriving DecidableEq, Repr

/-- `ChangelogCommit::from_commit` from
src/crates/cocogitto-changelog/src/release.rs. -/
def ChangelogCommit.from_commit (commit : Commit) (author_username : Option String)
    (changelog_title : String) : ChangelogCommit :=
  { changelog_title := changelog_title
    author_username := author_username
    commit := commit }

/-- `Release` from src/crates/cocogitto-changelog/src/release.rs; the
recursive `previous : Option<Box<Release>>` chain forces an inductive type. -/
inductive Release where
  | mk (version : OidOf) (from_ : OidOf) (date : Int)
       (commits : List ChangelogCommit) (previous : Option Release)

def Release.version : Release → OidOf
  | .mk v _ _ _ _ => v

def Release.from_ : Release → OidOf
  | .mk _ f _ _ _ => f

def Release.date : Release → Int
  | .mk _ _ d _ _ => d

def Release.commits : Release → List ChangelogCommit
  | .mk _ _ _ cs _ => cs

def Release.previous : Release → Option Release
  | .mk _ _ _ _ p => p

/-- The releases of a chain, newest first (`self` followed by the
`previous` chain). -/
def Release.chain : Release → List Release
  | .mk v f d cs none => [.mk v f d cs none]
  | .mk v f d cs (some p) => .mk v f d cs (some p) :: p.chain

/-- The error kinds surfaced by the changelog core.  `EmptyRelease` is named
in src (`ChangelogError::EmptyRelease`); the other kinds are modelled from
the spec (§6/§7: "unresolved remote-linked template without remote context",
"named custom template not found"). -/
inductive ChangelogError where
  | EmptyRelease
  | MissingRemoteContext
  | TemplateNotFound (name : String)
deriving DecidableEq, Repr

/-- The external classification services consumed by `release_from_commits`
(lines 119–125 of changelog.rs): the conventional-commit parser with the
allowed-types setting baked in, the omission policy, the username resolver
and the changelog-title lookup. -/
structure Env (C : Type) where
  from_git_commit : C → Except String Commit
  should_omit_commit : String → Bool
  commit_username : String → Option String
  get_changelog_title : String → String

variable {C : Type}

/-- The per-commit classification of the `filter_map` body in
`release_from_commits` (changelog.rs lines 118–140), minus the `warn!`
side effect (see `classify_warning`). -/
def classify_commit (env : Env C) (commit : C) : Option ChangelogCommit :=
  match env.from_git_commit commit with
  | .ok commit =>
      if !env.should_omit_commit commit.conventional.commit_type then
        some (ChangelogCommit.from_commit commit
          (env.commit_username commit.author)
          (env.get_changelog_title commit.conventional.commit_type))
      else
        none
  | .error _ => none

/-- The `warn!` trace of the `filter_map` body: a parse failure logs the
error message, everything else logs nothing (changelog.rs lines 135–139). -/
def classify_warning (env : Env C) (commit : C) : Option String :=
  match env.from_git_commit commit with
  | .ok _ => none
  | .error err => some err

/-- The inner `for` loop of `release_from_commits` (lines 94–100): push
commits until (and including) the first tagged identifier, returning the
group and the unconsumed remainder of the iterator. -/
def take_release : List (OidOf × C) → List (OidOf × C) × List (OidOf × C)
  | [] => ([], [])
  | e :: rest =>
      if is_tag e.1 then ([e], rest)
      else ((e :: (take_release rest).1), (take_release rest).2)

theorem take_release_snd_length (l : List (OidOf × C)) :
    (take_release l).2.length ≤ l.length := by
  induction l with
  | nil => simp [take_release]
  | cons e rest ih =>
      simp only [take_release]
      split
      · simp
      · exact Nat.le_succ_of_le ih

theorem take_release_cons_lt (e : OidOf × C) (rest : List (OidOf × C)) :
    (take_release (e :: rest)).2.length < (e :: rest).length := by
  simp only [take_release]
  split
  · simp
  · exact Nat.lt_succ_of_le (take_release_snd_length rest)

/-- The outer `while` loop of `release_from_commits` (lines 91–104): slice
the oldest-to-newest sequence into tag-terminated groups, reversing each
group so that its commits are newest first. -/
def release_groups : List (OidOf × C) → List (List (OidOf × C))
  | [] => []
  | e :: rest =>
      (take_release (e :: rest)).1.reverse :: release_groups (take_release (e :: rest)).2
termination_by l => l.length
decreasing_by
  exact take_release_cons_lt e rest

/-- Identifier of the newest commit of a group stored newest-first
(`release.first().unwrap().0` in the fold, line 110). -/
def head_oid (g : List (OidOf × C)) : OidOf :=
  (g.head?.map Prod.fst).getD default

/-- Identifier of the oldest commit of a group stored newest-first
(`release.last().unwrap().0` in the fold, line 114). -/
def last_oid (g : List (OidOf × C)) : OidOf :=
  (g.getLast?.map Prod.fst).getD default

/-- The `Release` literal built by one iteration of the fold
(changelog.rs lines 109–144) for the nonempty group `e :: rest`. -/
def release_of (env : Env C) (now : Int) (current : Option Release)
    (e : OidOf × C) (rest : List (OidOf × C)) : Release :=
  Release.mk
    e.1
    (match current with
     | some c => c.version
     | none => last_oid (e :: rest))
    now
    ((e :: rest).filterMap (fun p => classify_commit env p.2))
    current

/-- One iteration of the fold over the groups (changelog.rs lines 108–147).
The `[]` case is unreachable: `release_groups` only produces nonempty
groups (the source `unwrap`s there); the accumulator is left unchanged. -/
def build_release (env : Env C) (now : Int) (current : Option Release) :
    List (OidOf × C) → Option Release
  | [] => current
  | e :: rest => some (release_of env now current e rest)

/-- `release_from_commits` from src/crates/cocogitto/src/command/changelog.rs
(lines 85–150).  The input list is the `CommitIter` in iteration order; the
source first reverses it (`.rev()`), partitions it into tag-terminated
groups, folds the groups into a linked release chain and returns the final
accumulator, or `EmptyRelease` when it is absent (`ok_or`). -/
def release_from_commits (env : Env C) (now : Int) (commits : List (OidOf × C)) :
    Except ChangelogError Release :=
  match (release_groups commits.reverse).foldl (build_release env now) none with
  | some release => .ok release
  | none => .error .EmptyRelease

/-- The `warn!` trace of a whole `release_from_commits` run: groups are
processed oldest-release first, commits within a group newest first. -/
def release_warnings (env : Env C) (commits : List (OidOf × C)) : List String :=
  ((release_groups commits.reverse).map
    (fun g => g.filterMap (fun p => classify_warning env p.2))).flatten

/-! ### Derived views of a release chain -/

def chain_opt : Option Release → List Release
  | none => []
  | some r => r.chain

theorem Release.chain_mk (v f : OidOf) (d : Int) (cs : List ChangelogCommit)
    (prev : Option Release) :
    (Release.mk v f d cs prev).chain = Release.mk v f d cs prev :: chain_opt prev := by
  cases prev <;> simp [Release.chain, chain_opt]

theorem Release.chain_eq (r : Release) : r.chain = r :: chain_opt r.previous := by
  cases r with
  | mk v f d cs prev => rw [Release.chain_mk]; rfl

/-- All commits of a chain, oldest release first and oldest commit first
within each release (each release's `commits` field is newest-first). -/
def Release.all_commits_oldest_first : Release → List ChangelogCommit
  | .mk _ _ _ cs none => cs.reverse
  | .mk _ _ _ cs (some p) => p.all_commits_oldest_first ++ cs.reverse

/-- The list of releases the fold produces for a list of groups, oldest
release first, starting from accumulator `prev`; empty groups leave the
accumulator unchanged, mirroring `build_release`. -/
def fold_releases (env : Env C) (now : Int) :
    Option Release → List (List (OidOf × C)) → List Release
  | _, [] => []
  | prev, [] :: gs => fold_releases env now prev gs
  | prev, (e :: rest) :: gs =>
      release_of env now prev e rest ::
        fold_releases env now (some (release_of env now prev e rest)) gs

/-- Master lemma: the chain of the fold result is the oldest-first release
list of the groups, reversed, stacked on the chain of the accumulator. -/
theorem chain_foldl (env : Env C) (now : Int)
    (gs : List (List (OidOf × C))) (acc : Option Release) :
    chain_opt (gs.foldl (build_release env now) acc) =
      (fold_releases env now acc gs).reverse ++ chain_opt acc := by
  induction gs generalizing acc with
  | nil => simp [fold_releases]
  | cons g gs ih =>
      cases g with
      | nil => simpa [build_release, fold_releases] using ih acc
      | cons e rest =>
          rw [List.foldl_cons]
          have hstep : build_release env now acc (e :: rest) =
              some (release_of env now acc e rest) := rfl
          rw [hstep, ih (some (release_of env now acc e rest))]
          have hchain : chain_opt (some (release_of env now acc e rest)) =
              release_of env now acc e rest :: chain_opt acc := by
            cases acc <;> simp [chain_opt, release_of, Release.chain_mk]
          rw [hchain, fold_releases]
          simp

/-! ### Structure of the groups produced by the partition loop -/

/-- Whether the newest element of an oldest-to-newest sequence carries a
tag, i.e. whether there are no commits after the last tag. -/
def ends_with_tag (l : List (OidOf × C)) : Bool :=
  match l.getLast? with
  | some e => is_tag e.1
  | none => false

theorem take_release_append (l : List (OidOf × C)) :
    (take_release l).1 ++ (take_release l).2 = l := by
  induction l with
  | nil => simp [take_release]
  | cons e rest ih =>
      simp only [take_release]
      split
      · simp
      · simpa using ih

theorem take_release_head (e : OidOf × C) (rest : List (OidOf × C)) :
    (take_release (e :: rest)).1.head? = some e := by
  simp only [take_release]
  split <;> simp

theorem take_release_fst_ne_nil (e : OidOf × C) (rest : List (OidOf × C)) :
    (take_release (e :: rest)).1 ≠ [] := by
  intro h
  have := take_release_head e rest
  rw [h] at this
  simp at this

theorem take_release_getLast_of_snd_ne_nil (l : List (OidOf × C))
    (h : (take_release l).2 ≠ []) :
    ∃ t, (take_release l).1.getLast? = some t ∧ is_tag t.1 = true := by
  induction l with
  | nil => simp [take_release] at h
  | cons e rest ih =>
      by_cases htag : is_tag e.1 = true
      · refine ⟨e, ?_, htag⟩
        simp [take_release, htag]
      · have hne : ¬ is_tag e.1 = true := htag
        have hsnd : (take_release (e :: rest)).2 = (take_release rest).2 := by
          simp [take_release, hne]
        rw [hsnd] at h
        obtain ⟨t, ht, htag'⟩ := ih h
        refine ⟨t, ?_, htag'⟩
        have hfst : (take_release (e :: rest)).1 = e :: (take_release rest).1 := by
          simp [take_release, hne]
        have hrest_ne : rest ≠ [] := by
          intro hr
          rw [hr] at h
          simp [take_release] at h
        have hfst_ne : (take_release rest).1 ≠ [] := by
          cases rest with
          | nil => exact absurd rfl hrest_ne
          | cons x xs => exact take_release_fst_ne_nil x xs
        obtain ⟨y, ys, hys⟩ := List.exists_cons_of_ne_nil hfst_ne
        rw [hfst, hys, List.getLast?_cons_cons]
        rw [hys] at ht
        exact ht

theorem take_release_dropLast_no_tag (l : List (OidOf × C)) :
    ∀ x ∈ (take_release l).1.dropLast, is_tag x.1 = false := by
  induction l with
  | nil => simp [take_release]
  | cons e rest ih =>
      by_cases htag : is_tag e.1 = true
      · simp [take_release, htag]
      · have hfst : (take_release (e :: rest)).1 = e :: (take_release rest).1 := by
          simp [take_release, htag]
        rw [hfst]
        cases hrest : (take_release rest).1 with
        | nil => simp
        | cons y ys =>
            intro x hx
            rw [List.dropLast_cons₂] at hx
            rcases List.mem_cons.mp hx with hx | hx
            · subst hx; simpa using htag
            · exact ih x (by rw [hrest]; exact hx)

theorem take_release_no_tag (l : List (OidOf × C))
    (h : ∀ x ∈ l, is_tag x.1 = false) : take_release l = (l, []) := by
  induction l with
  | nil => simp [take_release]
  | cons e rest ih =>
      have he : is_tag e.1 = false := h e (by simp)
      have hrest := ih (fun x hx => h x (List.mem_cons_of_mem e hx))
      simp [take_release, he, hrest]

theorem release_groups_nil : release_groups ([] : List (OidOf × C)) = [] := by
  simp [release_groups]

theorem release_groups_cons (e : OidOf × C) (rest : List (OidOf × C)) :
    release_groups (e :: rest) =
      (take_release (e :: rest)).1.reverse ::
        release_groups (take_release (e :: rest)).2 := by
  simp [release_groups]

theorem release_groups_ne_nil (l : List (OidOf × C)) (h : l ≠ []) :
    release_groups l ≠ [] := by
  cases l with
  | nil => exact absurd rfl h
  | cons e rest => rw [release_groups_cons]; simp

theorem release_groups_nonempty (l : List (OidOf × C)) :
    ∀ g ∈ release_groups l, g ≠ [] := by
  induction l using release_groups.induct with
  | case1 => simp [release_groups_nil]
  | case2 e rest ih =>
      rw [release_groups_cons]
      intro g hg
      rcases List.mem_cons.mp hg with hg | hg
      · subst hg
        simpa using take_release_fst_ne_nil e rest
      · exact ih g hg

theorem release_groups_flatten (l : List (OidOf × C)) :
    ((release_groups l).map List.reverse).flatten = l := by
  induction l using release_groups.induct with
  | case1 => simp [release_groups_nil]
  | case2 e rest ih =>
      rw [release_groups_cons]
      simp only [List.map_cons, List.flatten_cons, List.reverse_reverse]
      rw [ih]
      exact take_release_append (e :: rest)

theorem getLast?_append_of_ne_nil {α : Type _} (g r : List α) (h : r ≠ []) :
    (g ++ r).getLast? = r.getLast? := by
  have hs : r.getLast?.isSome := by
    rw [List.getLast?_isSome]
    exact h
  rw [List.getLast?_append, Option.or_of_isSome hs]

theorem countP_of_ne_nil {α : Type _} (p : α → Bool) (l : List α) (h : l ≠ []) :
    l.countP p = l.dropLast.countP p + (if p (l.getLast h) then 1 else 0) := by
  conv_lhs => rw [← List.dropLast_append_getLast h]
  rw [List.countP_append]
  simp [List.countP_cons]

/-- Chain-length arithmetic of the partition: one group per tag, plus one
trailing group exactly when the newest element is untagged. -/
theorem release_groups_length (l : List (OidOf × C)) (h : l ≠ []) :
    (release_groups l).length =
      l.countP (fun e => is_tag e.1) + (if ends_with_tag l then 0 else 1) := by
  induction l using release_groups.induct with
  | case1 => exact absurd rfl h
  | case2 e rest ih =>
      rw [release_groups_cons]
      have happ := take_release_append (e :: rest)
      by_cases hr : (take_release (e :: rest)).2 = []
      · -- the final, possibly unterminated group
        rw [hr] at happ
        simp only [List.append_nil] at happ
        have hg_ne : (take_release (e :: rest)).1 ≠ [] := take_release_fst_ne_nil e rest
        have hcount := countP_of_ne_nil (fun x => is_tag x.1) _ hg_ne
        have hdrop : (take_release (e :: rest)).1.dropLast.countP (fun x => is_tag x.1) = 0 :=
          List.countP_eq_zero.mpr (by
            intro x hx
            simpa using take_release_dropLast_no_tag (e :: rest) x hx)
        have hend : ends_with_tag ((take_release (e :: rest)).1) =
            is_tag ((take_release (e :: rest)).1.getLast hg_ne).1 := by
          simp [ends_with_tag, List.getLast?_eq_getLast_of_ne_nil hg_ne]
        rw [hr, release_groups_nil]
        conv_rhs => rw [← happ]
        rw [hcount, hdrop, hend]
        by_cases htag : is_tag ((take_release (e :: rest)).1.getLast hg_ne).1 = true
        · simp [htag]
        · simp at htag
          simp [htag]
      · -- a tag-terminated group followed by more input
        obtain ⟨t, ht, htag⟩ := take_release_getLast_of_snd_ne_nil (e :: rest) hr
        have hg_ne : (take_release (e :: rest)).1 ≠ [] := take_release_fst_ne_nil e rest
        have hglast : (take_release (e :: rest)).1.getLast hg_ne = t := by
          have := List.getLast?_eq_getLast_of_ne_nil hg_ne
          rw [this] at ht
          exact (Option.some_injective _ ht).symm ▸ rfl
        have hcount_g : (take_release (e :: rest)).1.countP (fun x => is_tag x.1) = 1 := by
          rw [countP_of_ne_nil _ _ hg_ne,
            List.countP_eq_zero.mpr (by
              intro x hx
              simpa using take_release_dropLast_no_tag (e :: rest) x hx)]
          rw [hglast]
          simp [htag]
        have hend : ends_with_tag ((e : OidOf × C) :: rest) =
            ends_with_tag (take_release (e :: rest)).2 := by
          unfold ends_with_tag
          conv_lhs => rw [← happ]
          rw [getLast?_append_of_ne_nil _ _ hr]
        have hcount_s : ((e : OidOf × C) :: rest).countP (fun x => is_tag x.1) =
            (take_release (e :: rest)).1.countP (fun x => is_tag x.1) +
            (take_release (e :: rest)).2.countP (fun x => is_tag x.1) := by
          conv_lhs => rw [← happ]
          exact List.countP_append _ _ _
        rw [List.length_cons, ih hr, hcount_s, hcount_g, hend]
        ring

/-- Every group except possibly the last one is closed by a tag: its head
(the newest element, groups being stored newest-first) is tagged. -/
theorem release_groups_dropLast_tagged (l : List (OidOf × C)) :
    ∀ g ∈ (release_groups l).dropLast, ∃ t, g.head? = some t ∧ is_tag t.1 = true := by
  induction l using release_groups.induct with
  | case1 => simp [release_groups_nil]
  | case2 e rest ih =>
      rw [release_groups_cons]
      by_cases hrec : release_groups (take_release (e :: rest)).2 = []
      · rw [hrec]
        simp
      · have hr : (take_release (e :: rest)).2 ≠ [] := by
          intro h0
          rw [h0, release_groups_nil] at hrec
          exact hrec rfl
        rw [List.dropLast_cons_of_ne_nil hrec]
        intro g hg
        rcases List.mem_cons.mp hg with hg | hg
        · subst hg
          obtain ⟨t, ht, htag⟩ := take_release_getLast_of_snd_ne_nil (e :: rest) hr
          exact ⟨t, by rw [List.head?_reverse]; exact ht, htag⟩
        · exact ih g hg

/-- The head of the last group is the newest element of the whole input. -/
theorem release_groups_getLast (l : List (OidOf × C)) (h : l ≠ []) :
    ∃ g, (release_groups l).getLast? = some g ∧ g.head? = l.getLast? := by
  induction l using release_groups.induct with
  | case1 => exact absurd rfl h
  | case2 e rest ih =>
      rw [release_groups_cons]
      have happ := take_release_append (e :: rest)
      by_cases hr : (take_release (e :: rest)).2 = []
      · rw [hr, release_groups_nil]
        refine ⟨(take_release (e :: rest)).1.reverse, rfl, ?_⟩
        rw [List.head?_reverse]
        conv_rhs => rw [← happ, hr]
        simp
      · obtain ⟨g, hgl, hgh⟩ := ih hr
        refine ⟨g, ?_, ?_⟩
        · have hrec : release_groups (take_release (e :: rest)).2 ≠ [] :=
            release_groups_ne_nil _ hr
          obtain ⟨y, ys, hys⟩ := List.exists_cons_of_ne_nil hrec
          rw [hys, List.getLast?_cons_cons, ← hys]
          exact hgl
        · rw [hgh]
          conv_rhs => rw [← happ]
          rw [getLast?_append_of_ne_nil _ _ hr]

/-! ### Field computations of the fold -/

theorem release_of_version (env : Env C) (now : Int) (cur : Option Release)
    (e : OidOf × C) (rest : List (OidOf × C)) :
    (release_of env now cur e rest).version = e.1 := rfl

theorem release_of_previous (env : Env C) (now : Int) (cur : Option Release)
    (e : OidOf × C) (rest : List (OidOf × C)) :
    (release_of env now cur e rest).previous = cur := rfl

theorem release_of_commits (env : Env C) (now : Int) (cur : Option Release)
    (e : OidOf × C) (rest : List (OidOf × C)) :
    (release_of env now cur e rest).commits =
      (e :: rest).filterMap (fun p => classify_commit env p.2) := rfl

theorem release_of_from_none (env : Env C) (now : Int)
    (e : OidOf × C) (rest : List (OidOf × C)) :
    (release_of env now none e rest).from_ = last_oid (e :: rest) := rfl

theorem release_of_from_some (env : Env C) (now : Int) (c : Release)
    (e : OidOf × C) (rest : List (OidOf × C)) :
    (release_of env now (some c) e rest).from_ = c.version := rfl

theorem fold_releases_length (env : Env C) (now : Int)
    (gs : List (List (OidOf × C))) (hne : ∀ g ∈ gs, g ≠ []) (prev : Option Release) :
    (fold_releases env now prev gs).length = gs.length := by
  induction gs generalizing prev with
  | nil => simp [fold_releases]
  | cons g gs ih =>
      cases g with
      | nil => exact absurd rfl (hne [] (by simp))
      | cons e rest =>
          rw [fold_releases]
          simp only [List.length_cons]
          rw [ih (fun g hg => hne g (List.mem_cons_of_mem _ hg))]

theorem fold_releases_map_version (env : Env C) (now : Int)
    (gs : List (List (OidOf × C))) (hne : ∀ g ∈ gs, g ≠ []) (prev : Option Release) :
    (fold_releases env now prev gs).map Release.version = gs.map head_oid := by
  induction gs generalizing prev with
  | nil => simp [fold_releases]
  | cons g gs ih =>
      cases g with
      | nil => exact absurd rfl (hne [] (by simp))
      | cons e rest =>
          rw [fold_releases]
          simp only [List.map_cons]
          rw [ih (fun g hg => hne g (List.mem_cons_of_mem _ hg))]
          simp [release_of_version, head_oid]

theorem fold_releases_map_commits (env : Env C) (now : Int)
    (gs : List (List (OidOf × C))) (hne : ∀ g ∈ gs, g ≠ []) (prev : Option Release) :
    (fold_releases env now prev gs).map Release.commits =
      gs.map (fun g => g.filterMap (fun p => classify_commit env p.2)) := by
  induction gs generalizing prev with
  | nil => simp [fold_releases]
  | cons g gs ih =>
      cases g with
      | nil => exact absurd rfl (hne [] (by simp))
      | cons e rest =>
          rw [fold_releases]
          simp only [List.map_cons]
          rw [ih (fun g hg => hne g (List.mem_cons_of_mem _ hg))]
          simp [release_of_commits]

theorem fold_releases_previous_isSome (env : Env C) (now : Int)
    (gs : List (List (OidOf × C))) (a : Release) :
    ∀ r' ∈ fold_releases env now (some a) gs, r'.previous ≠ none := by
  induction gs generalizing a with
  | nil => simp [fold_releases]
  | cons g gs ih =>
      cases g with
      | nil =>
          rw [fold_releases]
          exact ih a
      | cons e rest =>
          rw [fold_releases]
          intro r' hr'
          rcases List.mem_cons.mp hr' with hr' | hr'
          · subst hr'
            rw [release_of_previous]
            simp
          · exact ih _ r' hr'

/-- The shared skeleton of all partition theorems: for a nonempty input
`release_from_commits` succeeds and the chain of its result, oldest release
first, is the fold of the partition groups. -/
theorem release_from_commits_spec (env : Env C) (now : Int)
    (l : List (OidOf × C)) (h : l ≠ []) :
    ∃ r, release_from_commits env now l = .ok r ∧
      r.chain.reverse = fold_releases env now none (release_groups l.reverse) := by
  have hrev : l.reverse ≠ [] := by
    intro h0
    exact h (by simpa using congrArg List.reverse h0)
  have hgs : release_groups l.reverse ≠ [] := release_groups_ne_nil _ hrev
  have hne := release_groups_nonempty l.reverse
  have hchain := chain_foldl env now (release_groups l.reverse) none
  have hfr_len := fold_releases_length env now (release_groups l.reverse) hne none
  cases hfold : (release_groups l.reverse).foldl (build_release env now) none with
  | none =>
      rw [hfold] at hchain
      simp only [chain_opt, List.append_nil] at hchain
      have : fold_releases env now none (release_groups l.reverse) = [] := by
        have := congrArg List.length hchain.symm
        simpa using List.eq_nil_of_length_eq_zero (by simpa using this)
      rw [this] at hfr_len
      exact absurd (List.eq_nil_of_length_eq_zero hfr_len.symm) hgs
  | some r =>
      refine ⟨r, ?_, ?_⟩
      · rw [release_from_commits, hfold]
      · rw [hfold] at hchain
        simp only [chain_opt, List.append_nil] at hchain
        rw [hchain]
        simp

theorem all_commits_eq_chain (r : Release) :
    r.all_commits_oldest_first =
      ((r.chain.reverse).map (fun x => x.commits.reverse)).flatten := by
  induction r using Release.all_commits_oldest_first.induct with
  | case1 v f d cs =>
      simp [Release.all_commits_oldest_first, Release.chain, Release.commits]
  | case2 v f d cs p ih =>
      rw [Release.all_commits_oldest_first, ih]
      have hch : (Release.mk v f d cs (some p)).chain =
          Release.mk v f d cs (some p) :: p.chain := by
        rw [Release.chain_mk]; rfl
      rw [hch]
      simp [Release.commits]

theorem flatten_map_perm {α β : Type _} (f₁ f₂ : β → List α)
    (h : ∀ g, List.Perm (f₁ g) (f₂ g)) (gs : List β) :
    List.Perm (gs.map f₁).flatten (gs.map f₂).flatten := by
  induction gs with
  | nil => simp
  | cons g gs ih =>
      simp only [List.map_cons, List.flatten_cons]
      exact (h g).append ih

/-- The per-release `version`/`from` bookkeeping of the fold, stated the way
the spec describes it (§4.1 step 3): walking the groups oldest release
first, `version` is the identifier of the group's newest element and `from`
is the previous release's `version`, or the identifier of the group's
oldest element for the very first release.  This is the claim-side
description against which the fold is checked. -/
def FoldSpec : Option OidOf → List (List (OidOf × C)) → List Release → Prop
  | _, [], [] => True
  | pv, g :: gs, r :: rs =>
      r.version = head_oid g ∧
      r.from_ = (match pv with
                 | some v => v
                 | none => last_oid g) ∧
      FoldSpec (some r.version) gs rs
  | _, _, _ => False

theorem fold_releases_foldspec (env : Env C) (now : Int)
    (gs : List (List (OidOf × C))) (hne : ∀ g ∈ gs, g ≠ []) (prev : Option Release) :
    FoldSpec (prev.map Release.version) gs (fold_releases env now prev gs) := by
  induction gs generalizing prev with
  | nil => simp [fold_releases, FoldSpec]
  | cons g gs ih =>
      cases g with
      | nil => exact absurd rfl (hne [] (by simp))
      | cons e rest =>
          rw [fold_releases]
          refine ⟨?_, ?_, ?_⟩
          · rw [release_of_version]
            simp [head_oid]
          · cases prev with
            | none => rw [release_of_from_none]; rfl
            | some c => rw [release_of_from_some]; rfl
          · have := ih (fun g hg => hne g (List.mem_cons_of_mem _ hg))
              (some (release_of env now prev e rest))
            simpa [release_of_version, head_oid] using this

/-! ### Template selection (spec-modelled: the selector crate is not under
src/, only its callers and tests are) -/

/-- Remote coordinates "(host, repository, owner)" enabling hyperlinked
commit and compare URLs (spec §3). -/
structure RemoteContext where
  host : String
  repository : String
  owner : String
deriving DecidableEq, Repr

/-- Modelled from the spec: `RemoteContext::try_new` — a usable remote
context requires "host, repository, and owner all present" (§4.3); with any
coordinate missing there is no context. -/
def RemoteContext.try_new (remote repository owner : Option String) :
    Option RemoteContext :=
  match remote, repository, owner with
  | some h, some r, some o => some ⟨h, r, o⟩
  | _, _, _ => none

/-- The nine concrete template variants plus the custom escape hatch
(spec §3: "simple / full-hash / remote-linked, each in plain / monorepo /
package flavor"; §9: custom named templates are "a distinct variant
carrying a lookup key").  The variant names follow the test usages in
src/crates/cocogitto-changelog/src/release.rs. -/
inductive TemplateKind where
  | Default
  | FullHash
  | Remote
  | MonorepoDefault
  | MonorepoFullHash
  | MonorepoRemote
  | PackageDefault
  | PackageFullHash
  | PackageRemote
  | Custom (name : String)
deriving DecidableEq, Repr

/-- `Template` as used by the src tests: a kind plus an optional remote
context (src/crates/cocogitto-changelog/src/release.rs test module). -/
structure Template where
  remote_context : Option RemoteContext
  kind : TemplateKind
deriving DecidableEq, Repr

/-- Whether a template kind is one of the three remote-linked variants. -/
def TemplateKind.is_remote_linked : TemplateKind → Bool
  | .Remote | .MonorepoRemote | .PackageRemote => true
  | _ => false

/-- Modelled from the spec: `Template::from_arg` (§4.3) — a recognized name
maps to its variant; the three remote-linked names demand a usable remote
context and "must fail loudly rather than render broken links"; any other
name is a user-supplied custom template identifier passed through. -/
def Template.from_arg (name : String) (context : Option RemoteContext) :
    Except ChangelogError Template :=
  match name with
  | "default" => .ok ⟨context, .Default⟩
  | "full_hash" => .ok ⟨context, .FullHash⟩
  | "monorepo_default" => .ok ⟨context, .MonorepoDefault⟩
  | "monorepo_full_hash" => .ok ⟨context, .MonorepoFullHash⟩
  | "package_default" => .ok ⟨context, .PackageDefault⟩
  | "package_full_hash" => .ok ⟨context, .PackageFullHash⟩
  | "remote" =>
      match context with
      | some ctx => .ok ⟨some ctx, .Remote⟩
      | none => .error .MissingRemoteContext
  | "monorepo_remote" =>
      match context with
      | some ctx => .ok ⟨some ctx, .MonorepoRemote⟩
      | none => .error .MissingRemoteContext
  | "package_remote" =>
      match context with
      | some ctx => .ok ⟨some ctx, .PackageRemote⟩
      | none => .error .MissingRemoteContext
  | other => .ok ⟨context, .Custom other⟩

/-- The changelog-related settings read by `get_template_context`
(changelog.rs lines 34–42); `SETTINGS` is made an explicit parameter. -/
structure ChangelogSettings where
  remote : Option String
  repository : Option String
  owner : Option String
deriving DecidableEq, Repr

/-- `get_template_context` from changelog.rs lines 34–42. -/
def get_template_context (settings : ChangelogSettings) : Option RemoteContext :=
  RemoteContext.try_new settings.remote settings.repository settings.owner

/-! ### Renderer grouping (spec-modelled: the renderer crate is not under
src/, only its tests are) -/

/-- Modelled from the spec: one step of the renderer's "stable,
insertion-ordered grouping" by `changelog_title` (§4.4) — append the commit
to the first group carrying its title, or open a new group at the end.
This models group membership and group-key order; the order in which a
group's members are then *emitted* is `group_render_order`, which the src
test oracle pins (scoped before unscoped) against the spec's same-order
sentence. -/
def add_to_group (groups : List (String × List ChangelogCommit))
    (c : ChangelogCommit) : List (String × List ChangelogCommit) :=
  match groups with
  | [] => [(c.changelog_title, [c])]
  | (t, g) :: rest =>
      if t = c.changelog_title then (t, g ++ [c]) :: rest
      else (t, g) :: add_to_group rest c

/-- Modelled from the spec: the renderer's per-release grouping of commits
by `changelog_title` (§4.4), a single insertion-ordered pass over the
release's commit sequence. -/
def group_by_title (commits : List ChangelogCommit) :
    List (String × List ChangelogCommit) :=
  commits.foldl add_to_group []

/-- The titles of a sequence in first-appearance order — the order in which
the spec demands the groups be emitted (§4.4, §8). -/
def first_appearances (titles : List String) : List String :=
  titles.foldl (fun acc t => if t ∈ acc then acc else acc ++ [t]) []

/-- The commit list stored under title `t`, resolved to the first matching
group like `add_to_group` appends to the first matching group. -/
def group_of (groups : List (String × List ChangelogCommit)) (t : String) :
    List ChangelogCommit :=
  match groups.find? (fun p => p.1 == t) with
  | some p => p.2
  | none => []

/-! ### Concrete fixtures for witnesses and counterexamples -/

/-- A classification environment over opaque commits `Unit` whose parser
always fails. -/
def env_fail : Env Unit :=
  { from_git_commit := fun _ => .error "parse failure"
    should_omit_commit := fun _ => false
    commit_username := fun _ => none
    get_changelog_title := fun _ => "Features" }

/-- A classification environment over commit messages `String` whose parser
always succeeds with a fixed-shape conventional commit. -/
def env_ok : Env String :=
  { from_git_commit := fun msg =>
      .ok { oid := "17f7e23"
            conventional :=
              { commit_type := "feat"
                scope := none
                summary := msg
                body := none
                footers := []
                is_breaking_change := false }
            author := "Paul Delafosse"
            date := 0 }
    should_omit_commit := fun t => t == "chore"
    commit_username := fun _ => none
    get_changelog_title := fun _ => "Features" }

/-- A sample tag. -/
def tag_one : Tag := { name := "1.0.0", oid := "9bb5fac" }

/-- A raw input (iterator order) whose oldest processed element carries a
tag: a single tagged entry. -/
def tagged_singleton : List (OidOf × Unit) := [(OidOf.Tag tag_one, ())]

/-- A two-release raw input in iterator order (newest first): newest commit
`c`, then the tag closing release one, then two untagged commits. -/
def sample_entries : List (OidOf × String) :=
  [(OidOf.FirstCommit "c3", "fix: the bug"),
   (OidOf.Tag tag_one, "chore: 1.0.0"),
   (OidOf.FirstCommit "c1", "feat: a feature"),
   (OidOf.FirstCommit "c0", "chore: init")]

/-- A commit fixture for the grouping example, one per title/summary pair. -/
def sample_changelog_commit (title summary : String) : ChangelogCommit :=
  { changelog_title := title
    author_username := none
    commit :=
      { oid := "17f7e23"
        conventional :=
          { commit_type := "feat"
            scope := none
            summary := summary
            body := none
            footers := []
            is_breaking_change := false }
        author := "Paul Delafosse"
        date := 0 } }

/-- The `Bug Fixes` commit of `Release::fixture`
(src/crates/cocogitto-changelog/src/release.rs lines 507–527). -/
def fixture_fix_commit : ChangelogCommit :=
  { changelog_title := "Bug Fixes"
    author_username := some "oknozor"
    commit :=
      { oid := "17f7e23081db15e9318aeb37529b1d473cf41cbe"
        conventional :=
          { commit_type := "fix"
            scope := some "parser"
            summary := "fix parser implementation"
            body := some "the body"
            footers := [{ token := "token", content := "content" }]
            is_breaking_change := false }
        author := "Paul Delafosse"
        date := 0 } }

/-- The unscoped `Features` commit of `Release::fixture`
(src/crates/cocogitto-changelog/src/release.rs lines 528–548). -/
def fixture_awesome_commit : ChangelogCommit :=
  { changelog_title := "Features"
    author_username := none
    commit :=
      { oid := "17f7e23081db15e9318aeb37529b1d473cf41cbe"
        conventional :=
          { commit_type := "feat"
            scope := none
            summary := "awesome feature"
            body := some "the body"
            footers := [{ token := "token", content := "content" }]
            is_breaking_change := false }
        author := "Paul Delafosse"
        date := 0 } }

/-- The scoped `Features` commit of `Release::fixture`
(src/crates/cocogitto-changelog/src/release.rs lines 549–569). -/
def fixture_implement_commit : ChangelogCommit :=
  { changelog_title := "Features"
    author_username := some "oknozor"
    commit :=
      { oid := "17f7e23081db15e9318aeb37529b1d473cf41cbe"
        conventional :=
          { commit_type := "feat"
            scope := some "parser"
            summary := "implement the changelog generator"
            body := some "the body"
            footers := [{ token := "token", content := "content" }]
            is_breaking_change := false }
        author := "James Delleck"
        date := 0 } }

/-- `Release::fixture` from src/crates/cocogitto-changelog/src/release.rs
lines 477–573: tag `1.0.0` over tag `0.1.0`, with the `commits` vector
holding, in order, the scoped Bug Fixes commit, the unscoped `awesome
feature` and the scoped `implement the changelog generator`; the fixture's
historical timestamp is an opaque `Int` here. -/
def Release.fixture : Release :=
  Release.mk
    (OidOf.Tag { name := "1.0.0", oid := "9bb5facac5724bc81385fdd740fedbb49056da00" })
    (OidOf.Tag { name := "0.1.0", oid := "fae3a288a1bc69b14f85a1d5fe57cee1964acd60" })
    0
    [fixture_fix_commit, fixture_awesome_commit, fixture_implement_commit]
    none

/-- Modelled from the src test oracle, which overrides the spec's same-order
sentence here: every expected rendering in
src/crates/cocogitto-changelog/src/release.rs (e.g. lines 87–93, and
likewise the full-hash, remote, monorepo and package oracles) emits the
scoped `implement the changelog generator` before the unscoped `awesome
feature`, although the fixture's `commits` vector holds them in the
opposite order — within one emitted group, scoped commits are rendered
before unscoped ones, each part keeping its relative vector order. -/
def group_render_order (g : List ChangelogCommit) : List ChangelogCommit :=
  g.filter (fun c => c.commit.conventional.scope.isSome) ++
    g.filter (fun c => c.commit.conventional.scope.isNone)

/-- A release whose commit sequence carries the titles
`["Features", "Bug Fixes", "Features"]` in that order — the spec's
group-ordering example (§8). -/
def sample_release : Release :=
  Release.mk (OidOf.Tag tag_one) (OidOf.FirstCommit "c0") 0
    [sample_changelog_commit "Features" "awesome feature",
     sample_changelog_commit "Bug Fixes" "fix parser implementation",
     sample_changelog_commit "Features" "implement the changelog generator"]
    none

/-! ### Derived facts shared by the claim theorems -/

theorem all_commits_of_chain_eq (env : Env C) (now : Int)
    (l : List (OidOf × C)) (r : Release)
    (hch : r.chain.reverse = fold_releases env now none (release_groups l.reverse)) :
    r.all_commits_oldest_first =
      l.reverse.filterMap (fun p => classify_commit env p.2) := by
  have hne := release_groups_nonempty l.reverse
  rw [all_commits_eq_chain, hch]
  have hmm : (fold_releases env now none (release_groups l.reverse)).map
      (fun x => x.commits.reverse) =
      (release_groups l.reverse).map
        (fun g => (g.filterMap (fun p => classify_commit env p.2)).reverse) := by
    have := fold_releases_map_commits env now (release_groups l.reverse) hne none
    calc (fold_releases env now none (release_groups l.reverse)).map
          (fun x => x.commits.reverse)
        = ((fold_releases env now none (release_groups l.reverse)).map
            Release.commits).map List.reverse := by rw [List.map_map]; rfl
      _ = ((release_groups l.reverse).map
            (fun g => g.filterMap (fun p => classify_commit env p.2))).map
            List.reverse := by rw [this]
      _ = _ := by rw [List.map_map]; rfl
  rw [hmm]
  have hrev : (release_groups l.reverse).map
      (fun g => (g.filterMap (fun p => classify_commit env p.2)).reverse) =
      ((release_groups l.reverse).map List.reverse).map
        (fun g => g.filterMap (fun p => classify_commit env p.2)) := by
    rw [List.map_map]
    refine List.map_congr_left ?_
    intro g _
    simp
  rw [hrev, ← List.filterMap_flatten, release_groups_flatten]

theorem chain_tail_tagged (env : Env C) (now : Int)
    (l : List (OidOf × C)) (r : Release)
    (hch : r.chain.reverse = fold_releases env now none (release_groups l.reverse)) :
    ∀ r' ∈ r.chain.tail, is_tag r'.version = true := by
  intro r' hr'
  have hne := release_groups_nonempty l.reverse
  have hvers := fold_releases_map_version env now (release_groups l.reverse) hne none
  -- r.chain = (fold_releases …).reverse, so its tail is the reversed dropLast
  have hchain : r.chain = (fold_releases env now none (release_groups l.reverse)).reverse := by
    rw [← hch, List.reverse_reverse]
  rw [hchain, List.tail_reverse, List.mem_reverse] at hr'
  have hmem : r'.version ∈
      ((fold_releases env now none (release_groups l.reverse)).map
        Release.version).dropLast := by
    rw [← List.map_dropLast]
    exact List.mem_map_of_mem Release.version hr'
  rw [hvers, ← List.map_dropLast] at hmem
  obtain ⟨g, hg, hgv⟩ := List.mem_map.mp hmem
  obtain ⟨t, ht, htag⟩ := release_groups_dropLast_tagged l.reverse g hg
  rw [← hgv]
  simp only [head_oid, ht]
  simpa using htag

theorem chain_head_version (env : Env C) (now : Int)
    (l : List (OidOf × C)) (h : l ≠ []) (r : Release)
    (hch : r.chain.reverse = fold_releases env now none (release_groups l.reverse)) :
    ∃ x, l.reverse.getLast? = some x ∧ r.version = x.1 := by
  have hrev : l.reverse ≠ [] := by
    intro h0
    exact h (by simpa using congrArg List.reverse h0)
  have hne := release_groups_nonempty l.reverse
  have hvers := fold_releases_map_version env now (release_groups l.reverse) hne none
  obtain ⟨g, hgl, hgh⟩ := release_groups_getLast l.reverse hrev
  obtain ⟨x, hx⟩ : ∃ x, l.reverse.getLast? = some x := by
    cases hx : l.reverse.getLast? with
    | none => exact absurd (List.getLast?_eq_none_iff.mp hx) hrev
    | some x => exact ⟨x, rfl⟩
  refine ⟨x, hx, ?_⟩
  -- the head of the chain is the returned release itself
  have hhead : r.chain.head? = some r := by
    rw [Release.chain_eq]; rfl
  have hlast : (fold_releases env now none (release_groups l.reverse)).getLast? =
      some r := by
    rw [← hch, List.getLast?_reverse]
    exact hhead
  have hlast_v : ((fold_releases env now none
      (release_groups l.reverse)).map Release.version).getLast? =
      some r.version := by
    rw [List.getLast?_map, hlast]; rfl
  rw [hvers, List.getLast?_map, hgl] at hlast_v
  have : head_oid g = r.version := by
    simpa using hlast_v
  rw [← this, head_oid, hgh, hx]
  rfl

/-! ### Grouping lemmas (renderer model) -/

theorem add_to_group_map_fst (G : List (String × List ChangelogCommit))
    (c : ChangelogCommit) :
    (add_to_group G c).map Prod.fst =
      if c.changelog_title ∈ G.map Prod.fst then G.map Prod.fst
      else G.map Prod.fst ++ [c.changelog_title] := by
  induction G with
  | nil => simp [add_to_group]
  | cons p rest ih =>
      obtain ⟨t, g⟩ := p
      by_cases ht : t = c.changelog_title
      · subst ht
        simp [add_to_group]
      · simp only [add_to_group, if_neg ht, List.map_cons]
        rw [ih]
        have hts : ¬ c.changelog_title = t := fun h => ht h.symm
        by_cases hmem : c.changelog_title ∈ rest.map Prod.fst
        · simp [List.mem_cons, hmem, hts]
        · simp [List.mem_cons, hmem, hts]

theorem foldl_add_map_fst (cs : List ChangelogCommit)
    (G : List (String × List ChangelogCommit)) :
    (cs.foldl add_to_group G).map Prod.fst =
      (cs.map ChangelogCommit.changelog_title).foldl
        (fun acc t => if t ∈ acc then acc else acc ++ [t]) (G.map Prod.fst) := by
  induction cs generalizing G with
  | nil => simp
  | cons c cs ih =>
      simp only [List.foldl_cons, List.map_cons]
      rw [ih, add_to_group_map_fst]

theorem first_appearances_foldl_nodup (ts : List String) (acc : List String)
    (h : acc.Nodup) :
    (ts.foldl (fun acc t => if t ∈ acc then acc else acc ++ [t]) acc).Nodup := by
  induction ts generalizing acc with
  | nil => exact h
  | cons t ts ih =>
      simp only [List.foldl_cons]
      by_cases hmem : t ∈ acc
      · rw [if_pos hmem]
        exact ih acc h
      · rw [if_neg hmem]
        refine ih _ ?_
        simp [List.nodup_append, h, hmem]

theorem group_of_cons (t' : String) (g' : List ChangelogCommit)
    (rest : List (String × List ChangelogCommit)) (t : String) :
    group_of ((t', g') :: rest) t = if t' = t then g' else group_of rest t := by
  by_cases h : t' = t
  · simp [group_of, List.find?_cons, h]
  · simp [group_of, List.find?_cons, h]

theorem group_of_add (G : List (String × List ChangelogCommit))
    (c : ChangelogCommit) (t : String) :
    group_of (add_to_group G c) t =
      group_of G t ++ (if c.changelog_title = t then [c] else []) := by
  induction G with
  | nil =>
      by_cases h : c.changelog_title = t
      · simp [add_to_group, group_of_cons, group_of, h]
      · simp [add_to_group, group_of_cons, group_of, h]
  | cons p rest ih =>
      obtain ⟨t', g'⟩ := p
      by_cases ht' : t' = c.changelog_title
      · have hadd : add_to_group ((t', g') :: rest) c = (t', g' ++ [c]) :: rest := by
          simp [add_to_group, ht']
        rw [hadd, group_of_cons, group_of_cons]
        by_cases htt : t' = t
        · have hct : c.changelog_title = t := ht'.symm.trans htt
          rw [if_pos htt, if_pos htt, if_pos hct]
        · have hct : ¬ c.changelog_title = t := fun h => htt (ht'.trans h)
          rw [if_neg htt, if_neg htt, if_neg hct, List.append_nil]
      · have hadd : add_to_group ((t', g') :: rest) c = (t', g') :: add_to_group rest c := by
          simp [add_to_group, ht']
        rw [hadd, group_of_cons, group_of_cons]
        by_cases htt : t' = t
        · have hct : ¬ c.changelog_title = t := fun h => ht' (htt.trans h.symm)
          rw [if_pos htt, if_pos htt, if_neg hct, List.append_nil]
        · rw [if_neg htt, if_neg htt, ih]

theorem foldl_group_of (cs : List ChangelogCommit)
    (G : List (String × List ChangelogCommit)) (t : String) :
    group_of (cs.foldl add_to_group G) t =
      group_of G t ++ cs.filter (fun c => c.changelog_title == t) := by
  induction cs generalizing G with
  | nil => simp
  | cons c cs ih =>
      simp only [List.foldl_cons]
      rw [ih, group_of_add, List.append_assoc]
      by_cases h : c.changelog_title = t
      · simp [List.filter_cons, h]
      · simp [List.filter_cons, h]

theorem find?_eq_of_mem_of_nodup_keys (G : List (String × List ChangelogCommit))
    (h : (G.map Prod.fst).Nodup) (t : String) (g : List ChangelogCommit)
    (hm : (t, g) ∈ G) :
    G.find? (fun p => p.1 == t) = some (t, g) := by
  induction G with
  | nil => simp at hm
  | cons p rest ih =>
      obtain ⟨t', g'⟩ := p
      simp only [List.map_cons, List.nodup_cons] at h
      rcases List.mem_cons.mp hm with hm | hm
      · rw [← hm]
        simp [List.find?_cons]
      · have htne : t' ≠ t := by
          intro he
          exact h.1 (he ▸ (List.mem_map.mpr ⟨(t, g), hm, rfl⟩))
        rw [List.find?_cons_of_neg _ (by simpa using htne)]
        exact ih h.2 hm

theorem fold_releases_first (env : Env C) (now : Int)
    (l : List (OidOf × C)) (h : l ≠ []) :
    ∃ r0 rest0 e0, fold_releases env now none (release_groups l.reverse) = r0 :: rest0 ∧
      l.reverse.head? = some e0 ∧ r0.previous = none ∧ r0.from_ = e0.1 ∧
      ∀ r' ∈ rest0, r'.previous ≠ none := by
  have hrev : l.reverse ≠ [] := by
    intro h0
    exact h (by simpa using congrArg List.reverse h0)
  obtain ⟨e, rest, hs⟩ := List.exists_cons_of_ne_nil hrev
  have hg0_ne : (take_release (e :: rest)).1.reverse ≠ [] := by
    simpa using take_release_fst_ne_nil e rest
  obtain ⟨y, ys, hys⟩ := List.exists_cons_of_ne_nil hg0_ne
  refine ⟨release_of env now none y ys,
    fold_releases env now (some (release_of env now none y ys))
      (release_groups (take_release (e :: rest)).2), e, ?_, ?_, ?_, ?_, ?_⟩
  · rw [hs, release_groups_cons, hys, fold_releases]
  · rw [hs]; rfl
  · rw [release_of_previous]
  · rw [release_of_from_none, ← hys, last_oid, List.getLast?_reverse,
      take_release_head e rest]
    rfl
  · exact fold_releases_previous_isSome env now _ _

/-! ### Claim theorems -/

/-- C1: for every input with `k` tagged identifiers, `release_from_commits`
returns a release chain of length `k` or `k + 1` — `k + 1` exactly when the
newest processed element is untagged, i.e. when commits occur after the
last tag — and concatenating the releases' commits, oldest release first
and oldest commit first within each release, reproduces the oldest-to-newest
input minus the commits dropped by classification or omission; the
releases' commits are therefore pairwise disjoint consecutive segments of
that filtered sequence. -/
theorem claim_c1_partition_chain (env : Env C) (now : Int)
    (l : List (OidOf × C)) (h : l ≠ []) :
    ∃ r, release_from_commits env now l = .ok r ∧
      (r.chain.length = l.countP (fun e => is_tag e.1) ∨
        r.chain.length = l.countP (fun e => is_tag e.1) + 1) ∧
      (r.chain.length = l.countP (fun e => is_tag e.1) + 1 ↔
        ends_with_tag l.reverse = false) ∧
      r.all_commits_oldest_first =
        l.reverse.filterMap (fun p => classify_commit env p.2) := by
  obtain ⟨r, hok, hch⟩ := release_from_commits_spec env now l h
  have hrev : l.reverse ≠ [] := by
    intro h0
    exact h (by simpa using congrArg List.reverse h0)
  have hlen : r.chain.length =
      l.countP (fun e => is_tag e.1) + (if ends_with_tag l.reverse then 0 else 1) := by
    have h1 : r.chain.length = r.chain.reverse.length := by simp
    rw [h1, hch,
      fold_releases_length env now _ (release_groups_nonempty _) none,
      release_groups_length l.reverse hrev, List.countP_reverse]
  refine ⟨r, hok, ?_, ?_, all_commits_of_chain_eq env now l r hch⟩
  · rw [hlen]
    cases hend : ends_with_tag l.reverse
    · right; simp
    · left; simp
  · rw [hlen]
    cases hend : ends_with_tag l.reverse
    · simp
    · simp

/-- C1 witness at a concrete two-release history. -/
theorem claim_c1_partition_chain_witness :
    sample_entries ≠ [] ∧
    (∃ r, release_from_commits env_ok 0 sample_entries = .ok r ∧
      (r.chain.length = sample_entries.countP (fun e => is_tag e.1) ∨
        r.chain.length = sample_entries.countP (fun e => is_tag e.1) + 1) ∧
      (r.chain.length = sample_entries.countP (fun e => is_tag e.1) + 1 ↔
        ends_with_tag sample_entries.reverse = false) ∧
      r.all_commits_oldest_first =
        sample_entries.reverse.filterMap (fun p => classify_commit env_ok p.2)) :=
  ⟨by decide, claim_c1_partition_chain env_ok 0 sample_entries (by decide)⟩

/-- C2: along the chain, oldest release first, every release's `version` is
the identifier of its group's newest element and its `from` is the previous
release's `version`, or the identifier of the group's oldest element for
the very first release (the only untagged lower boundary). -/
theorem claim_c2_version_from (env : Env C) (now : Int)
    (l : List (OidOf × C)) (h : l ≠ []) :
    ∃ r, release_from_commits env now l = .ok r ∧
      FoldSpec none (release_groups l.reverse) r.chain.reverse := by
  obtain ⟨r, hok, hch⟩ := release_from_commits_spec env now l h
  refine ⟨r, hok, ?_⟩
  rw [hch]
  exact fold_releases_foldspec env now (release_groups l.reverse)
    (release_groups_nonempty _) none

/-- C2 witness at a concrete two-release history. -/
theorem claim_c2_version_from_witness :
    sample_entries ≠ [] ∧
    (∃ r, release_from_commits env_ok 0 sample_entries = .ok r ∧
      FoldSpec none (release_groups sample_entries.reverse) r.chain.reverse) :=
  ⟨by decide, claim_c2_version_from env_ok 0 sample_entries (by decide)⟩

/-- C3: `release_from_commits` fails exactly on the empty input, with the
distinct `EmptyRelease` error; every nonempty input yields `Ok`, whatever
the classification environment does. -/
theorem claim_c3_empty_iff_error (env : Env C) (now : Int) :
    (∀ l : List (OidOf × C),
      release_from_commits env now l = .error .EmptyRelease ↔ l = []) ∧
    (∀ l : List (OidOf × C), l ≠ [] →
      ∃ r, release_from_commits env now l = .ok r) := by
  constructor
  · intro l
    constructor
    · intro herr
      by_contra hne
      obtain ⟨r, hok, _⟩ := release_from_commits_spec env now l hne
      rw [hok] at herr
      exact Except.noConfusion herr
    · rintro rfl
      rw [release_from_commits]
      simp [release_groups_nil]
  · intro l hl
    obtain ⟨r, hok, _⟩ := release_from_commits_spec env now l hl
    exact ⟨r, hok⟩

/-- C3 witness: the empty input errors with `EmptyRelease`, a concrete
nonempty input returns `Ok`. -/
theorem claim_c3_empty_iff_error_witness :
    (release_from_commits env_ok 0 ([] : List (OidOf × String)) =
      .error .EmptyRelease) ∧
    (sample_entries ≠ [] ∧
      ∃ r, release_from_commits env_ok 0 sample_entries = .ok r) :=
  ⟨((claim_c3_empty_iff_error env_ok 0).1 []).mpr rfl,
   by decide, (claim_c3_empty_iff_error env_ok 0).2 sample_entries (by decide)⟩

/-- C4: a nonempty input with no tagged identifier yields exactly one
release, with `previous = none` and `from` equal to the identifier of the
oldest commit of the whole history. -/
theorem claim_c4_no_tags (env : Env C) (now : Int)
    (l : List (OidOf × C)) (h : l ≠ [])
    (htags : l.countP (fun e => is_tag e.1) = 0) :
    ∃ r, release_from_commits env now l = .ok r ∧
      r.chain.length = 1 ∧ r.previous = none ∧
      ∃ e, l.reverse.head? = some e ∧ r.from_ = e.1 := by
  obtain ⟨r, hok, hch⟩ := release_from_commits_spec env now l h
  have hrev : l.reverse ≠ [] := by
    intro h0
    exact h (by simpa using congrArg List.reverse h0)
  have hnotag : ∀ x ∈ l.reverse, is_tag x.1 = false := by
    intro x hx
    have := List.countP_eq_zero.mp (by rw [List.countP_reverse]; exact htags)
    simpa using this x hx
  have hend : ends_with_tag l.reverse = false := by
    unfold ends_with_tag
    cases hx : l.reverse.getLast? with
    | none => rfl
    | some x =>
        obtain ⟨hne, hxeq⟩ := List.mem_getLast?_eq_getLast hx
        exact hxeq ▸ hnotag _ (List.getLast_mem hne)
  have hlen : r.chain.length = 1 := by
    have h1 : r.chain.length = r.chain.reverse.length := by simp
    rw [h1, hch, fold_releases_length env now _ (release_groups_nonempty _) none,
      release_groups_length l.reverse hrev, List.countP_reverse, htags, hend]
    rfl
  have hprev : r.previous = none := by
    have hc := Release.chain_eq r
    cases hp : r.previous with
    | none => rfl
    | some p =>
        rw [hp] at hc
        have hlp : r.chain.length = p.chain.length + 1 := by
          rw [hc]
          simp [chain_opt]
        rw [hlen] at hlp
        have hplen : p.chain.length = 0 := by omega
        have hpnil : p.chain = [] := List.eq_nil_of_length_eq_zero hplen
        rw [Release.chain_eq p] at hpnil
        exact List.noConfusion hpnil
  obtain ⟨r0, rest0, e0, hfr, he0, hr0p, hr0f, _⟩ := fold_releases_first env now l h
  have hchain1 : r.chain = [r] := by
    have hh : r.chain.head? = some r := by rw [Release.chain_eq]; rfl
    cases hc : r.chain with
    | nil => rw [hc] at hh; exact Option.noConfusion hh
    | cons a as =>
        rw [hc] at hh hlen
        simp only [List.head?_cons, Option.some.injEq] at hh
        simp only [List.length_cons] at hlen
        have has : as = [] := by
          have h0 : as.length = 0 := by omega
          exact List.eq_nil_of_length_eq_zero h0
        rw [hh, has]
  have hr0 : r0 = r ∧ rest0 = [] := by
    have h2 : ([r] : List Release) = r0 :: rest0 := by
      rw [← hfr, ← hch, hchain1]
      simp
    exact ⟨(List.cons_eq_cons.mp h2.symm).1, (List.cons_eq_cons.mp h2.symm).2⟩
  exact ⟨r, hok, hlen, hprev, e0, he0, hr0.1 ▸ hr0f⟩

/-- C4 witness at a concrete untagged history. -/
theorem claim_c4_no_tags_witness :
    ([(OidOf.FirstCommit "c1", "feat: one"), (OidOf.FirstCommit "c0", "chore: init")]
        ≠ ([] : List (OidOf × String))) ∧
    ([(OidOf.FirstCommit "c1", "feat: one"), (OidOf.FirstCommit "c0", "chore: init")].countP
        (fun e => is_tag e.1) = 0) ∧
    (∃ r, release_from_commits env_ok 0
        [(OidOf.FirstCommit "c1", "feat: one"), (OidOf.FirstCommit "c0", "chore: init")] =
        .ok r ∧
      r.chain.length = 1 ∧ r.previous = none ∧
      ∃ e, [(OidOf.FirstCommit "c1", "feat: one"),
        (OidOf.FirstCommit "c0", "chore: init")].reverse.head? = some e ∧
        r.from_ = e.1) :=
  ⟨by decide, by decide,
    claim_c4_no_tags env_ok 0 _ (by decide) (by decide)⟩

/-- C5 counterexample: on the input whose single (hence oldest) processed
element carries a tag, the release with `previous = none` has the tag
identifier as `from`, refuting "`from` … is not a tag identifier … for
every input, including inputs whose oldest processed element carries a
tag". -/
theorem claim_c5_counterexample :
    ∃ r, release_from_commits env_fail 0 tagged_singleton = .ok r ∧
      r.previous = none ∧ is_tag r.from_ = true := by
  refine ⟨Release.mk (OidOf.Tag tag_one) (OidOf.Tag tag_one) 0 [] none, ?_, rfl, rfl⟩
  have hrev : tagged_singleton.reverse = tagged_singleton := rfl
  have htake : take_release tagged_singleton = (tagged_singleton, []) := by
    simp [tagged_singleton, take_release, is_tag]
  have hgroups : release_groups tagged_singleton.reverse = [tagged_singleton] := by
    rw [hrev, tagged_singleton, release_groups_cons, ← tagged_singleton, htake]
    simp [release_groups_nil, tagged_singleton]
  rw [release_from_commits, hgroups]
  simp [build_release, release_of, tagged_singleton, last_oid, classify_commit, env_fail]

/-- C5 as amended: in every chain, the unique release with
`previous = none` is the oldest one and its `from` is the identifier of the
oldest processed element — which is a tag identifier exactly when that
element carries a tag (the original claim's "never a tag" fails on inputs
whose oldest element is tagged). -/
theorem claim_c5_amended (env : Env C) (now : Int)
    (l : List (OidOf × C)) (h : l ≠ []) :
    ∃ r, release_from_commits env now l = .ok r ∧
      ∃ r0 rest0 e0, r.chain.reverse = r0 :: rest0 ∧
        l.reverse.head? = some e0 ∧
        r0.previous = none ∧ r0.from_ = e0.1 ∧
        is_tag r0.from_ = is_tag e0.1 ∧
        ∀ r' ∈ rest0, r'.previous ≠ none := by
  obtain ⟨r, hok, hch⟩ := release_from_commits_spec env now l h
  obtain ⟨r0, rest0, e0, hfr, he0, hr0p, hr0f, hrest⟩ := fold_releases_first env now l h
  exact ⟨r, hok, r0, rest0, e0, hch.trans hfr, he0, hr0p, hr0f, by rw [hr0f], hrest⟩

/-- C5 amended witness at a concrete two-release history. -/
theorem claim_c5_amended_witness :
    sample_entries ≠ [] ∧
    (∃ r, release_from_commits env_ok 0 sample_entries = .ok r ∧
      ∃ r0 rest0 e0, r.chain.reverse = r0 :: rest0 ∧
        sample_entries.reverse.head? = some e0 ∧
        r0.previous = none ∧ r0.from_ = e0.1 ∧
        is_tag r0.from_ = is_tag e0.1 ∧
        ∀ r' ∈ rest0, r'.previous ≠ none) :=
  ⟨by decide, claim_c5_amended env_ok 0 sample_entries (by decide)⟩

/-- C6: classification failures never escalate — for every nonempty input
the partition succeeds; a commit whose parse fails is excluded and leaves
exactly its error message in the warning trace (the trace is a permutation
of the parse errors of the input); a commit whose type is configured for
omission is excluded silently; and the surviving commits are exactly the
classification-filtered input. -/
theorem claim_c6_degrade_to_omission (env : Env C) (now : Int)
    (l : List (OidOf × C)) (h : l ≠ []) :
    ∃ r, release_from_commits env now l = .ok r ∧
      r.all_commits_oldest_first =
        l.reverse.filterMap (fun p => classify_commit env p.2) ∧
      List.Perm (release_warnings env l)
        (l.reverse.filterMap (fun p => classify_warning env p.2)) ∧
      (∀ p ∈ l, ∀ err, env.from_git_commit p.2 = .error err →
        classify_commit env p.2 = none ∧ classify_warning env p.2 = some err) ∧
      (∀ p ∈ l, ∀ c, env.from_git_commit p.2 = .ok c →
        env.should_omit_commit c.conventional.commit_type = true →
        classify_commit env p.2 = none ∧ classify_warning env p.2 = none) := by
  obtain ⟨r, hok, hch⟩ := release_from_commits_spec env now l h
  refine ⟨r, hok, all_commits_of_chain_eq env now l r hch, ?_, ?_, ?_⟩
  · -- the warning trace is the parse-error trace up to per-group reversal
    have hrhs : l.reverse.filterMap (fun p => classify_warning env p.2) =
        ((release_groups l.reverse).map
          (fun g => (g.filterMap (fun p => classify_warning env p.2)).reverse)).flatten := by
      conv_lhs => rw [← release_groups_flatten l.reverse]
      rw [List.filterMap_flatten, List.map_map]
      congr 1
      refine List.map_congr_left ?_
      intro g _
      simp
    rw [release_warnings, hrhs]
    exact flatten_map_perm _ _
      (fun g => (List.reverse_perm _).symm) (release_groups l.reverse)
  · intro p _ err herr
    constructor
    · rw [classify_commit, herr]
    · rw [classify_warning, herr]
  · intro p _ c hc homit
    constructor
    · rw [classify_commit, hc]
      simp [homit]
    · rw [classify_warning, hc]

/-- C6 witness at a concrete history with a parse failure (`env_fail`
rejects every commit yet the partition succeeds). -/
theorem claim_c6_degrade_to_omission_witness :
    tagged_singleton ≠ [] ∧
    (∃ r, release_from_commits env_fail 0 tagged_singleton = .ok r ∧
      r.all_commits_oldest_first =
        tagged_singleton.reverse.filterMap (fun p => classify_commit env_fail p.2) ∧
      List.Perm (release_warnings env_fail tagged_singleton)
        (tagged_singleton.reverse.filterMap (fun p => classify_warning env_fail p.2)) ∧
      (∀ p ∈ tagged_singleton, ∀ err, env_fail.from_git_commit p.2 = .error err →
        classify_commit env_fail p.2 = none ∧
        classify_warning env_fail p.2 = some err) ∧
      (∀ p ∈ tagged_singleton, ∀ c, env_fail.from_git_commit p.2 = .ok c →
        env_fail.should_omit_commit c.conventional.commit_type = true →
        classify_commit env_fail p.2 = none ∧
        classify_warning env_fail p.2 = none)) :=
  ⟨by decide, claim_c6_degrade_to_omission env_fail 0 tagged_singleton (by decide)⟩

/-- C10: in every returned chain, all releases except the most recent one
carry a tag identifier as `version`; the most recent release's `version` is
tagged exactly when the input's newest element is tagged, so at most the
chain head can be untagged. -/
theorem claim_c10_tagged_versions (env : Env C) (now : Int)
    (l : List (OidOf × C)) (h : l ≠ []) :
    ∃ r, release_from_commits env now l = .ok r ∧
      (∀ r' ∈ r.chain.tail, is_tag r'.version = true) ∧
      is_tag r.version = ends_with_tag l.reverse := by
  obtain ⟨r, hok, hch⟩ := release_from_commits_spec env now l h
  refine ⟨r, hok, chain_tail_tagged env now l r hch, ?_⟩
  obtain ⟨x, hx, hv⟩ := chain_head_version env now l h r hch
  rw [hv]
  simp [ends_with_tag, hx]

/-- C10 witness at a concrete two-release history. -/
theorem claim_c10_tagged_versions_witness :
    sample_entries ≠ [] ∧
    (∃ r, release_from_commits env_ok 0 sample_entries = .ok r ∧
      (∀ r' ∈ r.chain.tail, is_tag r'.version = true) ∧
      is_tag r.version = ends_with_tag sample_entries.reverse) :=
  ⟨by decide, claim_c10_tagged_versions env_ok 0 sample_entries (by decide)⟩

/-- C7: when rendering a single release the commit groups are emitted in
first-appearance order of their `changelog_title` within the release's
commit sequence — in particular for the title sequence
`["Features", "Bug Fixes", "Features"]` the groups come out as `Features`
then `Bug Fixes`, which is neither alphabetical nor any fixed priority
order. -/
theorem claim_c7_group_emission_order :
    (∀ r : Release, (group_by_title r.commits).map Prod.fst =
      first_appearances (r.commits.map ChangelogCommit.changelog_title)) ∧
    (group_by_title sample_release.commits).map Prod.fst =
      ["Features", "Bug Fixes"] := by
  constructor
  · intro r
    rw [group_by_title, first_appearances, foldl_add_map_fst]
    rfl
  · rfl

theorem group_by_title_mem_eq_filter (cs : List ChangelogCommit) (t : String)
    (g : List ChangelogCommit) (hm : (t, g) ∈ group_by_title cs) :
    g = cs.filter (fun c => c.changelog_title == t) := by
  have hnodup : ((group_by_title cs).map Prod.fst).Nodup := by
    rw [group_by_title, foldl_add_map_fst]
    exact first_appearances_foldl_nodup _ _ (by simp)
  have hfind := find?_eq_of_mem_of_nodup_keys _ hnodup t g hm
  have hgof : group_of (group_by_title cs) t = g := by
    rw [group_of, hfind]
  have hval : group_of (group_by_title cs) t =
      cs.filter (fun c => c.changelog_title == t) := by
    rw [group_by_title, foldl_group_of]
    rfl
  rw [hgof] at hval
  exact hval

/-- C8 counterexample: in `Release::fixture` (release.rs lines 477–573) the
`Features` group holds its commits in the vector order [`awesome feature`
(unscoped), `implement the changelog generator` (scoped)], yet the emission
order pinned by the src test oracle (release.rs lines 87–93 and every other
expected rendering) puts the scoped commit first — the renderer does
reorder commits inside a group, refuting "no reordering of commits inside a
group occurs". -/
theorem claim_c8_counterexample :
    group_of (group_by_title Release.fixture.commits) "Features" =
      [fixture_awesome_commit, fixture_implement_commit] ∧
    group_render_order
        (group_of (group_by_title Release.fixture.commits) "Features") =
      [fixture_implement_commit, fixture_awesome_commit] ∧
    group_render_order
        (group_of (group_by_title Release.fixture.commits) "Features") ≠
      group_of (group_by_title Release.fixture.commits) "Features" :=
  ⟨by decide, by decide, by decide⟩

/-- C8 as amended: within each rendered group the commits carrying a scope
are emitted before the unscoped ones — the one reordering the src test
oracle pins — and apart from that split no reordering occurs: the scoped
part and the unscoped part of every group are order-preserving filters,
hence sublists, of the release's `commits` vector. -/
theorem claim_c8_amended (r : Release) (t : String)
    (g : List ChangelogCommit) (hm : (t, g) ∈ group_by_title r.commits) :
    group_render_order g =
      r.commits.filter
          (fun c => c.commit.conventional.scope.isSome && (c.changelog_title == t)) ++
        r.commits.filter
          (fun c => c.commit.conventional.scope.isNone && (c.changelog_title == t)) ∧
    (r.commits.filter
        (fun c => c.commit.conventional.scope.isSome && (c.changelog_title == t))).Sublist
      r.commits ∧
    (r.commits.filter
        (fun c => c.commit.conventional.scope.isNone && (c.changelog_title == t))).Sublist
      r.commits := by
  have hg := group_by_title_mem_eq_filter r.commits t g hm
  refine ⟨?_, List.filter_sublist _, List.filter_sublist _⟩
  rw [hg]
  simp only [group_render_order]
  rw [List.filter_filter, List.filter_filter]

/-- C8 amended witness: the `Features` group of `Release::fixture`, emitted
scoped-first, equals the two ordered filters of the fixture's commit
vector. -/
theorem claim_c8_amended_witness :
    (("Features", [fixture_awesome_commit, fixture_implement_commit]) ∈
      group_by_title Release.fixture.commits) ∧
    (group_render_order [fixture_awesome_commit, fixture_implement_commit] =
      Release.fixture.commits.filter
          (fun c => c.commit.conventional.scope.isSome &&
            (c.changelog_title == "Features")) ++
        Release.fixture.commits.filter
          (fun c => c.commit.conventional.scope.isNone &&
            (c.changelog_title == "Features")) ∧
    (Release.fixture.commits.filter
        (fun c => c.commit.conventional.scope.isSome &&
          (c.changelog_title == "Features"))).Sublist Release.fixture.commits ∧
    (Release.fixture.commits.filter
        (fun c => c.commit.conventional.scope.isNone &&
          (c.changelog_title == "Features"))).Sublist Release.fixture.commits) :=
  ⟨by decide,
    claim_c8_amended Release.fixture "Features" _ (by decide)⟩

/-- C9: selecting any remote-linked template variant while any of the
remote coordinates (host, repository, owner) is missing fails with the
distinct `MissingRemoteContext` error — it never falls back to a plain
template. -/
theorem claim_c9_remote_requires_context (settings : ChangelogSettings)
    (hmiss : settings.remote = none ∨ settings.repository = none ∨
      settings.owner = none)
    (name : String)
    (hname : name = "remote" ∨ name = "monorepo_remote" ∨
      name = "package_remote") :
    Template.from_arg name (get_template_context settings) =
      .error ChangelogError.MissingRemoteContext := by
  have hctx : get_template_context settings = none := by
    cases settings with
    | mk a b c =>
        rcases hmiss with hm | hm | hm <;> simp only at hm <;> subst hm
        · cases b <;> cases c <;> rfl
        · cases a <;> cases c <;> rfl
        · cases a <;> cases b <;> rfl
  rw [hctx]
  rcases hname with hn | hn | hn <;> subst hn <;> rfl

/-- C9 witness: requesting the `remote` template with the host coordinate
missing yields `MissingRemoteContext`. -/
theorem claim_c9_remote_requires_context_witness :
    ((ChangelogSettings.mk none (some "cocogitto") (some "oknozor")).remote = none ∨
      (ChangelogSettings.mk none (some "cocogitto") (some "oknozor")).repository = none ∨
      (ChangelogSettings.mk none (some "cocogitto") (some "oknozor")).owner = none) ∧
    (("remote" : String) = "remote" ∨ ("remote" : String) = "monorepo_remote" ∨
      ("remote" : String) = "package_remote") ∧
    Template.from_arg "remote"
        (get_template_context (ChangelogSettings.mk none (some "cocogitto") (some "oknozor"))) =
      .error ChangelogError.MissingRemoteContext :=
  ⟨Or.inl rfl, Or.inl rfl,
    claim_c9_remote_requires_context _ (Or.inl rfl) "remote" (Or.inl rfl)⟩

end Cocogitto
